import Mathlib

/-!
# Verification of the userparser monitoring core

A shallow embedding, in Lean 4, of the keyword/city message matcher,
the word-variation generator, the fuzzy name matcher, the connection
pools, the group distributor, the dispatcher and the order-response
handler of the `userparser` repository, together with theorems settling
the specification claims about them.

Strings are modelled as `List Char` (`Str`).  Python's `str.lower` is
modelled character-wise for the Latin and Cyrillic ranges that the
program works with; all other characters are left unchanged.
-/

abbrev Str := List Char

/-- Character-wise model of Python `str.lower` for ASCII Latin and the
Cyrillic range used by the program (А-Я, Ё); other characters unchanged. -/
def pyLower (c : Char) : Char :=
  if 'A' ≤ c ∧ c ≤ 'Z' then Char.ofNat (c.toNat + 32)
  else if 'А' ≤ c ∧ c ≤ 'Я' then Char.ofNat (c.toNat + 32)
  else if c = 'Ё' then 'ё'
  else c

def lowerStr (s : Str) : Str := s.map pyLower

/-- ASCII whitespace as recognised by Python `str.split` / `str.strip`. -/
def isPyWs (c : Char) : Bool :=
  c = ' ' ∨ c = '\t' ∨ c = '\n' ∨ c = '\r' ∨ c = '\x0b' ∨ c = '\x0c'

def stripWs (s : Str) : Str :=
  (s.dropWhile isPyWs).reverse.dropWhile isPyWs |>.reverse

/-- Python `str.split()` with no argument: split on runs of whitespace,
discarding empty pieces. -/
def splitWs (s : Str) : List Str :=
  (s.splitOnP isPyWs).filter (· ≠ [])

/-- Python `" ".join(words)`. -/
def joinWords (ws : List Str) : Str := (ws.intersperse [' ']).flatten

/-- Python `needle in hay` for strings: contiguous-substring test. -/
def containsSub (hay needle : Str) : Bool :=
  (List.range (hay.length + 1)).any fun i => needle.isPrefixOf (hay.drop i)

/-- Keep the first occurrence of each element (Python `set` insertion
into a deterministic list model). -/
def dedupFirst {α : Type} [BEq α] (l : List α) : List α := go [] l
where
  go (seen : List α) : List α → List α
    | [] => []
    | x :: xs => if seen.contains x then go seen xs else x :: go (x :: seen) xs

/-! ## Message parser (`bot/services/parser.py`) -/

/-- The character class `[а-яёa-z0-9]` of the keyword regex: lowercase
Cyrillic а-я or ё, lowercase Latin, or an ASCII digit. -/
def cyrLatDigit (c : Char) : Bool :=
  ('а' ≤ c ∧ c ≤ 'я') ∨ c = 'ё' ∨ ('a' ≤ c ∧ c ≤ 'z') ∨ ('0' ≤ c ∧ c ≤ '9')

/-- True when the character of `t` at index `i` is not in the
`cyrLatDigit` class; an out-of-range index counts as a boundary. -/
def freeAt (t : Str) (i : Nat) : Bool := ! cyrLatDigit (t.getD i ' ')

/-- `re.search` of the pattern
`(?<![а-яёa-z0-9])kw(?![а-яёa-z0-9])` over `s`: some occurrence of `kw`
whose neighbours (when they exist) are outside the class. -/
def regexFound (kw s : Str) : Bool :=
  (List.range (s.length + 1)).any fun p =>
    kw.isPrefixOf (s.drop p) && (p == 0 || freeAt s (p - 1)) && freeAt s (p + kw.length)

/-- `MessageParser._find_keyword_match`: the parser stores the keywords
both in original and lowercased form and scans the lowercased text
padded with one space on each side; the first keyword whose pattern
matches is returned in its original form. -/
def findKeywordMatch (kws : List Str) (textLower : Str) : Option Str :=
  kws.find? fun kw => regexFound (lowerStr kw) (' ' :: (textLower ++ [' ']))

/-- A city filter row: canonical name plus precomputed variation list
(`city.variations or []` collapses SQL NULL to the empty list). -/
structure City where
  cityName : Str
  variations : List Str
deriving DecidableEq, Repr

/-- `cities_data.search_city_in_text`: some variation, lowercased, is a
plain substring of the lowercased text. -/
def searchCityInText (text : Str) (vars : List Str) : Bool :=
  vars.any fun v => containsSub (lowerStr text) (lowerStr v)

/-- `MessageParser.check_message`.  The final `if found_city:` of the
Python code is a string-truthiness test: when the first
variation-matching city has an empty stored `city_name`, the result is
no-match, exactly as when no city matched. -/
def checkMessage (kws : List Str) (cities : List City) (text : Str) :
    Bool × Option Str × Option Str :=
  if text = [] then (false, none, none)
  else
    match findKeywordMatch kws (lowerStr text) with
    | none => (false, none, none)
    | some kw =>
      if cities = [] then (true, some kw, none)
      else
        match cities.find? (fun c => searchCityInText text c.variations) with
        | some c =>
          if c.cityName = [] then (false, none, none)
          else (true, some kw, some c.cityName)
        | none => (false, none, none)

/-! Spec-side counterparts for C1/C2, written from the specification's
words: a keyword matches when its lowercased form occurs in the
lowercased (unpadded) text with no `cyrLatDigit` letter immediately
before or after it — string start/end count as boundaries. -/

/-- Spec reading of the word-boundary rule, on the plain text. -/
def boundaryOccurs (kw t : Str) : Bool :=
  (List.range (t.length + 1)).any fun p =>
    kw.isPrefixOf (t.drop p) && (p == 0 || freeAt t (p - 1)) && freeAt t (p + kw.length)

/-- Spec-side keyword selection: first keyword (in stored order) whose
lowercased form boundary-occurs in the lowercased text, reported in its
original stored form. -/
def findKeywordSpec (kws : List Str) (text : Str) : Option Str :=
  kws.find? fun kw => boundaryOccurs (lowerStr kw) (lowerStr text)

/-- Spec-side `check_message` written from the claim: keyword gate per
`findKeywordSpec`; with no city filters a keyword match alone yields
match=true and city=none; with city filters the first city (in filter
order) with any variation present as a case-insensitive substring wins,
reported by canonical name; a keyword match with no city present is an
overall no-match. -/
def checkMessageSpec (kws : List Str) (cities : List City) (text : Str) :
    Bool × Option Str × Option Str :=
  match findKeywordSpec kws text with
  | none => (false, none, none)
  | some kw =>
    if cities = [] then (true, some kw, none)
    else
      match cities.find? (fun c => searchCityInText text c.variations) with
      | some c => (true, some kw, some c.cityName)
      | none => (false, none, none)

/-! ## Word declension (`bot/utils/word_declension.py`)

Python builds `set`s of strings; the embedding models a set as a
duplicate-free list in insertion order (`dedupFirst`).  The `[:3]` /
`[:2]` slices of `list(word_vars)` pick candidates in that same order. -/

/-- Append each listed ending to `base`. -/
def withEndings (base : Str) (ends : List String) : List Str :=
  ends.map fun e => base ++ e.toList

def endsWithStr (s : Str) (suf : String) : Bool := suf.toList.isSuffixOf s

/-- `_generate_single_word_variations`. -/
def singleWordVariations (word : Str) : List Str :=
  if word.length < 3 then [word]
  else
    let block1 :=
      if endsWithStr word "а" then
        withEndings word.dropLast ["а", "ы", "е", "у", "ой", "ою", "ам", "ами", "ах"]
      else if endsWithStr word "я" then
        withEndings word.dropLast ["я", "и", "е", "ю", "ей", "ям", "ями", "ях"]
      else if ["к", "г", "х", "ж", "ш", "щ", "ч", "ц"].any (endsWithStr word ·) then
        withEndings word ["а", "у", "ом", "е", "и", "ов", "ам", "ами", "ах"]
      else if ! ("аеёиоуыэюя".toList.contains (word.getLastD ' ')) then
        withEndings word ["а", "у", "ом", "е", "ы", "ов", "ам", "ами", "ах"]
      else []
    let block2 :=
      if endsWithStr word "ь" then
        withEndings word.dropLast ["ь", "я", "ю", "ем", "ём", "е", "и", "ей", "ям", "ями", "ях"]
      else []
    let block3 :=
      if endsWithStr word "й" then
        withEndings word.dropLast ["й", "я", "ю", "ем", "е", "и", "ев", "ям", "ями", "ях"]
      else []
    let block4 :=
      if endsWithStr word "о" then
        withEndings word.dropLast ["о", "а", "у", "ом", "е"]
      else if endsWithStr word "е" ∧ word.length > 3 then
        withEndings word.dropLast ["е", "я", "ю", "ем", "и"]
      else []
    let block5 :=
      if endsWithStr word "ть" then
        withEndings (word.dropLast.dropLast)
          ["ть", "ю", "у", "ешь", "ёшь", "ет", "ёт", "ем", "ём", "ете", "ёте",
           "ют", "ут", "л", "ла", "ло", "ли", "й", "йте"]
      else []
    let block6 :=
      if endsWithStr word "ый" ∨ endsWithStr word "ий" ∨ endsWithStr word "ой" then
        withEndings (word.dropLast.dropLast)
          ["ый", "ий", "ой", "ая", "яя", "ое", "ее", "ые", "ие", "ого", "его",
           "ому", "ему", "ым", "им", "ом", "ем", "ую", "юю"]
      else []
    dedupFirst (word :: (block1 ++ block2 ++ block3 ++ block4 ++ block5 ++ block6))

/-- The bounded combination product of `_generate_phrase_variations`:
3×3 candidates for two-word phrases, 2×2×2 for three-word phrases,
nothing otherwise. -/
def phraseCombos (words : List Str) : List Str :=
  let wvl := words.map singleWordVariations
  if wvl.length == 2 then
    ((wvl.getD 0 []).take 3 |>.map fun v1 =>
      (wvl.getD 1 []).take 3 |>.map fun v2 => v1 ++ ' ' :: v2).flatten
  else if wvl.length == 3 then
    ((wvl.getD 0 []).take 2 |>.map fun v1 =>
      ((wvl.getD 1 []).take 2 |>.map fun v2 =>
        (wvl.getD 2 []).take 2 |>.map fun v3 => v1 ++ ' ' :: (v2 ++ ' ' :: v3)).flatten).flatten
  else []

/-- `_generate_phrase_variations`. -/
def phraseVariations (phrase : Str) : List Str :=
  dedupFirst (phrase :: phraseCombos (splitWs phrase))

/-- `generate_word_variations`. -/
def generateWordVariations (w : Str) : List Str :=
  let word := stripWs (lowerStr w)
  if word.contains ' ' then dedupFirst (word :: phraseVariations word)
  else dedupFirst (word :: singleWordVariations word)

/-! ## Fuzzy search (`bot/utils/fuzzy_search.py`)

Scores are modelled in `ℚ`.  The sequence-similarity is
`difflib.SequenceMatcher(None, a, b).ratio()`; for the short strings the
program compares, `autojunk` never activates (it needs `len(b) ≥ 200`),
so the matcher reduces to: repeatedly take the longest common
contiguous block (earliest in `a`, then in `b`, on ties), recurse left
and right of it, and return `2·matched/(len a + len b)`. -/

def normalizeText (t : Str) : Str :=
  (joinWords (splitWs (lowerStr t))).map fun c => if c = 'ё' then 'е' else c

/-- Length of the common run of `a` from `i` and `b` from `j`, staying
below `ahi`/`bhi`.  The counter is `ahi - i`, which bounds the run. -/
def commonRun (a b : Str) (ahi bhi : Nat) : Nat → Nat → Nat → Nat
  | 0, _, _ => 0
  | n + 1, i, j =>
    if i < ahi ∧ j < bhi ∧ a.getD i '\x00' = b.getD j '\x01' then
      1 + commonRun a b ahi bhi n (i + 1) (j + 1)
    else 0

/-- Longest common contiguous block of `a[alo:ahi]` and `b[blo:bhi]`,
ties broken toward the smallest start in `a`, then in `b` (the block
`find_longest_match` reports when no junk is involved). -/
def longestMatch (a b : Str) (alo ahi blo bhi : Nat) : Nat × Nat × Nat :=
  (List.range' alo (ahi - alo)).foldl
    (fun best i =>
      (List.range' blo (bhi - blo)).foldl
        (fun best j =>
          let k := commonRun a b ahi bhi (ahi - i) i j
          if k > best.2.2 then (i, j, k) else best)
        best)
    (alo, blo, 0)

/-- Total size of all matching blocks (the sum `ratio` is built from);
`fuel ≥ (ahi-alo)+(bhi-blo)` suffices and strictly decreases. -/
def matchesAux (a b : Str) : Nat → Nat → Nat → Nat → Nat → Nat
  | 0, _, _, _, _ => 0
  | fuel + 1, alo, ahi, blo, bhi =>
    let r := longestMatch a b alo ahi blo bhi
    if r.2.2 = 0 then 0
    else
      r.2.2 + matchesAux a b fuel alo r.1 blo r.2.1 +
        matchesAux a b fuel (r.1 + r.2.2) ahi (r.2.1 + r.2.2) bhi

def matchesTotal (a b : Str) : Nat :=
  matchesAux a b (a.length + b.length) 0 a.length 0 b.length

/-- `SequenceMatcher(None, a, b).ratio()`. -/
def seqRatio (a b : Str) : ℚ :=
  if a.length + b.length = 0 then 1
  else 2 * (matchesTotal a b : ℚ) / ((a.length : ℚ) + (b.length : ℚ))

/-- `calculate_similarity`. -/
def calculateSimilarity (s1 s2 : Str) : ℚ :=
  seqRatio (normalizeText s1) (normalizeText s2)

/-- The per-candidate score of `find_best_match`, on the normalized
query `qn` and normalized candidate name `nn`.  (In Python a candidate
whose normalized name is empty makes branch 1 divide by zero when the
query is empty too; theorems below exclude that by hypothesis, and on
that excluded input alone this total function differs from the code.) -/
def itemScore (qn nn : Str) : ℚ :=
  if containsSub nn qn then
    9/10 + ((qn.length : ℚ) / (nn.length : ℚ)) * (1/10)
  else
    let ws := splitWs qn
    let wn := splitWs nn
    let mw := (ws.filter fun w => wn.any fun nw => containsSub nw w || containsSub w nw).length
    if mw > 0 then
      ((mw : ℚ) / (max ws.length 1 : ℚ)) * (6/10) + calculateSimilarity qn nn * (4/10)
    else calculateSimilarity qn nn

/-- `find_best_match`. -/
def findBestMatch {α : Type} (q : Str) (items : List α) (f : α → Str) (t : ℚ) :
    Option α × ℚ :=
  let qn := normalizeText q
  let r := items.foldl
    (fun (acc : Option α × ℚ) it =>
      let s := itemScore qn (normalizeText (f it))
      if s > acc.2 then (some it, s) else acc)
    (none, 0)
  if r.2 ≥ t then r else (none, 0)

/-- The claim's per-candidate score as literally stated: in the
token-overlap branch only query words that appear as a substring of
some candidate word are counted. -/
def claimScore (qn nn : Str) : ℚ :=
  if containsSub nn qn then
    9/10 + ((qn.length : ℚ) / (nn.length : ℚ)) * (1/10)
  else
    let ws := splitWs qn
    let wn := splitWs nn
    let mw := (ws.filter fun w => wn.any fun nw => containsSub nw w).length
    if mw > 0 then
      ((mw : ℚ) / (ws.length : ℚ)) * (6/10) + calculateSimilarity qn nn * (4/10)
    else calculateSimilarity qn nn

/-- The amended per-candidate score: a query word counts as overlapping
a candidate word when either one is a substring of the other. -/
def amendScore (qn nn : Str) : ℚ :=
  if containsSub nn qn then
    9/10 + ((qn.length : ℚ) / (nn.length : ℚ)) * (1/10)
  else
    let ws := splitWs qn
    let wn := splitWs nn
    let mw := (ws.filter fun w => wn.any fun nw => containsSub nw w || containsSub w nw).length
    if mw > 0 then
      ((mw : ℚ) / (ws.length : ℚ)) * (6/10) + calculateSimilarity qn nn * (4/10)
    else calculateSimilarity qn nn

/-- Spec-side selection: the single highest-scoring candidate (first in
list order among ties) together with its score, provided that score
reaches the threshold; otherwise no-match. -/
def specSelect {α : Type} (score : α → ℚ) (items : List α) (t : ℚ) : Option α × ℚ :=
  let m := items.foldl (fun acc it => max acc (score it)) 0
  if m ≥ t then
    match items.find? (fun it => decide (score it = m)) with
    | some it => (some it, m)
    | none => (none, 0)
  else (none, 0)

example : regexFound "такси".toList (' ' :: ("такси нужно".toList ++ [' '])) = true := by decide
example : findKeywordMatch ["такси".toList] (lowerStr "Такси нужно".toList) =
    some "такси".toList := by decide
example : findKeywordMatch ["такси".toList] (lowerStr "потакси".toList) = none := by decide
example : findKeywordMatch ["такси".toList] (lowerStr "(такси)".toList) =
    some "такси".toList := by decide

/-! ## Connection pool, per-user mode (`userbot/client.py`)

The pool is a keyed registry; a Connection is represented by the serial
number it received when constructed, so "how many Connections were ever
constructed and started" is observable as `nextConn`. -/

structure UserPool where
  clients : List (Nat × Nat)
  nextConn : Nat
deriving DecidableEq, Repr

def poolKeys (p : UserPool) : List Nat := p.clients.map Prod.fst

/-- `UserBotPool.start_client`: no-op returning true when the key is
registered; otherwise construct and start a Connection (`startOk` is
whether `client.start()` succeeded) and register it only on success. -/
def startClient (p : UserPool) (key : Nat) (startOk : Bool) : UserPool × Bool :=
  if (p.clients.find? fun e => e.1 == key).isSome then (p, true)
  else if startOk then
    ({ clients := p.clients ++ [(key, p.nextConn)], nextConn := p.nextConn + 1 }, true)
  else (p, false)

/-- `UserBotPool.stop_client`: stop and deregister when present, else
do nothing. -/
def stopClient (p : UserPool) (key : Nat) : UserPool :=
  { p with clients := p.clients.filter fun e => ! (e.1 == key) }

/-! ## Inbound-message admission (`UserBotClient._handle_message`,
`SharedWorkerClient._handle_message`) -/

inductive TChatType
  | group
  | supergroup
  | channel
  | privateChat
deriving DecidableEq, Repr

structure TMessage where
  chatType : TChatType
  chatId : Int
  chatTitle : Option Str
  text : Str
  fromUser : Option Int
deriving DecidableEq, Repr

/-- `UserBotClient._handle_message` (per-user mode): returns the
callback arguments when the callback fires, `none` when the message is
dropped. -/
def userHandleMessage (ownerTid : Int) (monitored : List Int) (m : TMessage) :
    Option (Int × Str × Str) :=
  if ¬ (m.chatType = .group ∨ m.chatType = .supergroup) then none
  else if ¬ monitored.contains m.chatId then none
  else if m.fromUser = some ownerTid then none
  else if m.text = [] then none
  else some (m.chatId, m.chatTitle.getD "Unknown".toList, m.text)

/-- `SharedWorkerClient._handle_message` (shared-worker mode): same
admission filters except the own-sender check. -/
def sharedHandleMessage (monitored : List Int) (m : TMessage) :
    Option (Int × Str × Str × Int) :=
  if ¬ (m.chatType = .group ∨ m.chatType = .supergroup) then none
  else if ¬ monitored.contains m.chatId then none
  else if m.text = [] then none
  else some (m.chatId, m.chatTitle.getD "Unknown".toList, m.text, m.fromUser.getD 0)

/-! ## Dispatch batch (`SharedMonitorPool._dispatch_to_users`)

Each subscriber row is processed inside its own `try/except`; failures
of the surrounding I/O are modelled by an oracle `failOf` giving, per
subscriber, which step (if any) raises: fetching filters / parsing
(`failMatch`), committing the delivery record (`failDelivery`), or
sending the notification (`failSend` — caught inside the send helper,
after the delivery record was committed). -/

structure Delivery where
  userId : Nat
  matchedKeyword : Option Str
  matchedCity : Option Str
deriving DecidableEq, Repr

structure DispatchUser where
  uid : Nat
  keywords : List Str
  cities : List City
deriving DecidableEq, Repr

inductive FailPoint
  | ok
  | failMatch
  | failDelivery
  | failSend
deriving DecidableEq, Repr

/-- One iteration of the subscriber loop of `_dispatch_to_users`,
threading the committed delivery records. -/
def dispatchStep (failOf : Nat → FailPoint) (text : Str) (ds : List Delivery)
    (u : DispatchUser) : List Delivery :=
  match failOf u.uid with
  | .failMatch => ds
  | fp =>
    if u.keywords = [] then ds
    else
      let r := checkMessage u.keywords u.cities text
      if r.1 then
        if fp = .failDelivery then ds
        else ds ++ [⟨u.uid, r.2.1, r.2.2⟩]
      else ds

/-- `_dispatch_to_users`: the subscriber loop over one batch. -/
def dispatchToUsers (failOf : Nat → FailPoint) (text : Str)
    (entries : List DispatchUser) (ds : List Delivery) : List Delivery :=
  entries.foldl (dispatchStep failOf text) ds

/-- The contribution of one subscriber, defined with no reference to
the rest of the batch: the spec-side description of isolated per-
subscriber processing. -/
def userContribution (failOf : Nat → FailPoint) (text : Str) (u : DispatchUser) :
    Option Delivery :=
  match failOf u.uid with
  | .failMatch => none
  | fp =>
    if u.keywords = [] then none
    else
      let r := checkMessage u.keywords u.cities text
      if r.1 then
        if fp = .failDelivery then none
        else some ⟨u.uid, r.2.1, r.2.2⟩
      else none

/-! ## Group distributor (`userbot/shared_pool.py`, `crud.py`)

The database is modelled as explicit lists.  Workers are kept in the
stable `ORDER BY name` order in which `MonitorWorkerCRUD.get_active`
returns them, so list order is the stable name order of the claims. -/

structure MWorker where
  wid : Nat
  wname : Str
  isActive : Bool
  maxGroups : Nat
deriving DecidableEq, Repr

structure Subscriber where
  uid : Nat
  monitoringEnabled : Bool
  subscriptionEnd : Nat
  isBanned : Bool
deriving DecidableEq, Repr

structure WatchGroup where
  userId : Nat
  tgId : Int
  gname : Str
  isEnabled : Bool
deriving DecidableEq, Repr

structure Assignment where
  workerId : Nat
  tgId : Int
  gname : Str
  isActive : Bool
deriving DecidableEq, Repr

structure DBState where
  workers : List MWorker
  subs : List Subscriber
  groups : List WatchGroup
  assignments : List Assignment
  watchlists : List (Nat × List Int)
  now : Nat
deriving DecidableEq, Repr

/-- `MonitorWorkerCRUD.get_active`. -/
def activeWorkers (s : DBState) : List MWorker := s.workers.filter (·.isActive)

/-- The user-side filter of `redistribute_groups`'s query: monitoring
enabled and subscription unexpired (the query has no ban filter). -/
def subOkRedistribute (s : DBState) (uid : Nat) : Bool :=
  s.subs.any fun u => u.uid == uid && u.monitoringEnabled && decide (s.now < u.subscriptionEnd)

/-- The `SELECT DISTINCT (telegram_group_id, group_name)` join of
`redistribute_groups`, in first-occurrence order. -/
def groupsToMonitor (s : DBState) : List (Int × Str) :=
  dedupFirst (s.groups.filterMap fun g =>
    if g.isEnabled && subOkRedistribute s g.userId then some (g.tgId, g.gname) else none)

/-- `GroupAssignmentCRUD.get_by_group_id` (active assignments only). -/
def getByGroupId (s : DBState) (gid : Int) : Option Assignment :=
  s.assignments.find? fun a => a.tgId == gid && a.isActive

/-- Number of active assignments of one worker (the count loop of
`get_worker_with_least_groups`). -/
def countActive (s : DBState) (wid : Nat) : Nat :=
  (s.assignments.filter fun a => a.workerId == wid && a.isActive).length

/-- `GroupAssignmentCRUD.assign_group`: no-op when an active assignment
for the chat exists, else insert. -/
def assignGroupDb (s : DBState) (wid : Nat) (gid : Int) (name : Str) : DBState :=
  if (getByGroupId s gid).isSome then s
  else { s with assignments := s.assignments ++ [⟨wid, gid, name, true⟩] }

/-- The watch-list a worker loads from its active assignments. -/
def workerGroups (s : DBState) (wid : Nat) : List Int :=
  (s.assignments.filter fun a => a.workerId == wid && a.isActive).map (·.tgId)

/-- `SharedMonitorPool.refresh_worker_groups`: reload one running
worker's watch-list. -/
def refreshWorker (s : DBState) (wid : Nat) : DBState :=
  { s with watchlists := s.watchlists.map fun e =>
      if e.1 == wid then (e.1, workerGroups s wid) else e }

/-- `SharedMonitorPool.refresh_all_groups`. -/
def refreshAllWorkers (s : DBState) : DBState :=
  { s with watchlists := s.watchlists.map fun e => (e.1, workerGroups s e.1) }

/-- `GroupDistributor.redistribute_groups`. -/
def redistributeGroups (s : DBState) : DBState :=
  let ws := activeWorkers s
  if ws = [] then s
  else
    let rows := groupsToMonitor s
    if rows = [] then s
    else
      let wids := ws.map (·.wid)
      let s1 := { s with assignments := [] }
      let s2 := rows.enum.foldl
        (fun st p => assignGroupDb st (wids.getD (p.1 % wids.length) 0) p.2.1 p.2.2) s1
      refreshAllWorkers s2

/-- The selection loop of `get_worker_with_least_groups`: walk the
workers in stable order, keeping the first worker whose count is
strictly below the best seen so far and strictly below its own
capacity (`min_count` starts at infinity, modelled as `none`). -/
def leastFold (s : DBState) : List MWorker → Option MWorker × Option Nat →
    Option MWorker × Option Nat
  | [], acc => acc
  | w :: rest, acc =>
    let c := countActive s w.wid
    if (match acc.2 with | none => true | some m => c < m) && c < w.maxGroups then
      leastFold s rest (some w, some c)
    else leastFold s rest acc

/-- `MonitorWorkerCRUD.get_worker_with_least_groups`. -/
def workerWithLeastGroups (s : DBState) : Option MWorker :=
  let ws := activeWorkers s
  if ws = [] then none
  else (leastFold s ws (none, none)).1

/-- `GroupDistributor.assign_new_group`. -/
def assignNewGroup (s : DBState) (gid : Int) (name : Str) : DBState × Option Nat :=
  match getByGroupId s gid with
  | some a => (s, some a.workerId)
  | none =>
    match workerWithLeastGroups s with
    | none => (s, none)
    | some w => (refreshWorker (assignGroupDb s w.wid gid name) w.wid, some w.wid)

/-! Spec-side counterparts for C3/C4, written from the claims' words. -/

/-- The claim's subscriber filter for redistribution: enabled,
subscribed, and non-banned. -/
def subOkClaim (s : DBState) (uid : Nat) : Bool :=
  s.subs.any fun u =>
    u.uid == uid && u.monitoringEnabled && decide (s.now < u.subscriptionEnd) && !u.isBanned

/-- The chats the claim says need monitoring (with the ban filter). -/
def neededRowsClaim (s : DBState) : List (Int × Str) :=
  dedupFirst (s.groups.filterMap fun g =>
    if g.isEnabled && subOkClaim s g.userId then some (g.tgId, g.gname) else none)

/-- Round-robin reassignment as the claim describes it: discard all
assignments, assign chat `i` to active worker `i mod N`, refresh every
worker's watch-list. -/
def roundRobinOver (s : DBState) (rows : List (Int × Str)) : DBState :=
  let wids := (activeWorkers s).map (·.wid)
  refreshAllWorkers
    { s with assignments := rows.enum.map fun p =>
        ⟨wids.getD (p.1 % wids.length) 0, p.2.1, p.2.2, true⟩ }

/-- `redistribute_groups` as the claim literally states it (needed set
restricted to non-banned subscribers). -/
def redistributeClaim (s : DBState) : DBState :=
  roundRobinOver s (neededRowsClaim s)

/-- `redistribute_groups` as amended: same round-robin rebuild, but the
needed set ignores the ban flag (only enabled + monitoring-enabled +
unexpired are required, as the code's query has no ban filter). -/
def redistributeAmend (s : DBState) : DBState :=
  roundRobinOver s (groupsToMonitor s)

/-- The claim's least-loaded selection: first active worker (stable
order) with spare capacity whose active-assignment count is minimal
among active workers with spare capacity. -/
def leastLoadedClaim (s : DBState) : Option MWorker :=
  let ws := activeWorkers s
  ws.find? fun w => decide (countActive s w.wid < w.maxGroups ∧
    ∀ w2 ∈ ws, countActive s w2.wid < w2.maxGroups →
      countActive s w.wid ≤ countActive s w2.wid)

/-- `assign_new_group` as the claim states it: idempotent on an
existing active assignment; otherwise assign to the least-loaded
worker with spare capacity, refresh only that worker, return its ID;
`none` when no active worker has spare capacity. -/
def assignNewGroupClaim (s : DBState) (gid : Int) (name : Str) : DBState × Option Nat :=
  match getByGroupId s gid with
  | some a => (s, some a.workerId)
  | none =>
    match leastLoadedClaim s with
    | none => (s, none)
    | some w =>
      (refreshWorker
        { s with assignments := s.assignments ++ [⟨w.wid, gid, name, true⟩] } w.wid,
       some w.wid)

/-! ## Order response (`bot/handlers/monitoring.py::order_take`,
`OrderCRUD.mark_responded`) -/

structure OrderRec where
  oid : Nat
  telegramGroupId : Int
  messageId : Nat
  responded : Bool
  respondedAt : Option Nat
deriving DecidableEq, Repr

structure TakeState where
  orders : List OrderRec
  sentReplies : List (Int × Nat)
deriving DecidableEq, Repr

inductive TakeResult
  | noAccount
  | notFound
  | alreadyTaken
  | sent
  | sendFailed
deriving DecidableEq, Repr

/-- `order_take`: reject when the user has no connected account, the
order is unknown, or the order is already responded; otherwise send
the reply into the chat (`sendOk` models the client call) and only on
success mark the order responded (`mark_responded` sets `responded`
and `responded_at`). -/
def orderTake (st : TakeState) (oid : Nat) (hasSession : Bool) (sendOk : Bool)
    (now : Nat) : TakeState × TakeResult :=
  if ¬ hasSession then (st, .noAccount)
  else
    match st.orders.find? fun o => o.oid == oid with
    | none => (st, .notFound)
    | some o =>
      if o.responded then (st, .alreadyTaken)
      else if sendOk then
        ({ orders := st.orders.map fun o2 =>
             if o2.oid == oid then { o2 with responded := true, respondedAt := some now }
             else o2,
           sentReplies := st.sentReplies ++ [(o.telegramGroupId, o.messageId)] },
         .sent)
      else (st, .sendFailed)

/-! ## Helper lemmas -/

lemma dispatchStep_eq (failOf : Nat → FailPoint) (text : Str) (ds : List Delivery)
    (u : DispatchUser) :
    dispatchStep failOf text ds u = ds ++ (userContribution failOf text u).toList := by
  unfold dispatchStep userContribution
  cases h : failOf u.uid <;> simp <;> split_ifs <;> simp

lemma dispatchToUsers_eq (failOf : Nat → FailPoint) (text : Str)
    (entries : List DispatchUser) (ds : List Delivery) :
    dispatchToUsers failOf text entries ds =
      ds ++ entries.filterMap (userContribution failOf text) := by
  induction entries generalizing ds with
  | nil => simp [dispatchToUsers]
  | cons u rest ih =>
    unfold dispatchToUsers at ih ⊢
    rw [List.foldl_cons, dispatchStep_eq, ih, List.filterMap_cons]
    cases h : userContribution failOf text u <;> simp [h]

/-! ## Claim theorems -/

/-- **C7.** In every dispatch batch, a failure raised while processing one
subscriber (matching, delivery recording, or notification send) does not
abort processing of the remaining subscribers and does not remove
delivery records already committed for earlier subscribers: the batch
result is the initial records followed by each subscriber's isolated
contribution, computed independently of every other subscriber; and a
notification-send failure after a match leaves that subscriber's
committed delivery record in place. -/
theorem dispatch_batch_isolation (failOf : Nat → FailPoint) (text : Str)
    (entries : List DispatchUser) (ds : List Delivery) :
    dispatchToUsers failOf text entries ds =
      ds ++ entries.filterMap (userContribution failOf text) ∧
    (∀ u ∈ entries, failOf u.uid = .failSend → u.keywords ≠ [] →
      (checkMessage u.keywords u.cities text).1 = true →
      (⟨u.uid, (checkMessage u.keywords u.cities text).2.1,
        (checkMessage u.keywords u.cities text).2.2⟩ : Delivery) ∈
        dispatchToUsers failOf text entries ds) := by
  refine ⟨dispatchToUsers_eq failOf text entries ds, ?_⟩
  intro u hu hfail hkw hmatch
  rw [dispatchToUsers_eq]
  refine List.mem_append_right _ (List.mem_filterMap.mpr ⟨u, hu, ?_⟩)
  unfold userContribution
  rw [hfail]
  simp [hkw, hmatch]

theorem dispatch_batch_isolation_witness :
    (⟨1, some "такси".toList, none⟩ : Delivery) ∈
      dispatchToUsers (fun _ => .failSend) "такси".toList
        [⟨1, ["такси".toList], []⟩] [] :=
  (dispatch_batch_isolation (fun _ => .failSend) "такси".toList
    [⟨1, ["такси".toList], []⟩] []).2
    ⟨1, ["такси".toList], []⟩ (by decide) rfl (by decide) (by decide)

/-- **C5.** Pool operations are idempotent: `start_client` for an owner
key already registered returns true and leaves the pool unchanged (no
second Connection is constructed or started — `nextConn` is untouched);
a failed start for an unregistered key registers nothing; `stop_client`
for an unregistered key is a no-op that raises no error; and starting
preserves the one-live-Connection-per-key invariant. -/
theorem pool_start_stop_idempotent (p : UserPool) (key : Nat) (ok : Bool) :
    (key ∈ poolKeys p → startClient p key ok = (p, true)) ∧
    (key ∉ poolKeys p → startClient p key false = (p, false)) ∧
    (key ∉ poolKeys p → stopClient p key = p) ∧
    ((poolKeys p).Nodup → (poolKeys (startClient p key ok).1).Nodup) := by
  have hmem : (p.clients.find? fun e => e.1 == key).isSome ↔ key ∈ poolKeys p := by
    rw [List.find?_isSome]
    simp [poolKeys]
  refine ⟨?_, ?_, ?_, ?_⟩
  · intro hk
    unfold startClient
    rw [if_pos (hmem.mpr hk)]
  · intro hk
    unfold startClient
    rw [if_neg (fun h => hk (hmem.mp h))]
    simp
  · intro hk
    unfold stopClient
    have : p.clients.filter (fun e => ! (e.1 == key)) = p.clients := by
      rw [List.filter_eq_self]
      intro e he
      simp only [Bool.not_eq_true', beq_eq_false_iff_ne]
      intro hcontra
      exact hk (by simpa [poolKeys, hcontra] using List.mem_map_of_mem Prod.fst he)
    rw [this]
  · intro hnd
    unfold startClient
    split_ifs with h1 h2
    · exact hnd
    · have hk : key ∉ poolKeys p := fun hk => by simp [hmem.mpr hk] at h1
      simpa [poolKeys] using List.Nodup.append hnd (by simp) (by
        simp only [List.disjoint_singleton]
        simpa [poolKeys] using hk)
    · exact hnd

theorem pool_start_stop_idempotent_witness :
    (1 ∈ poolKeys ⟨[(1, 0)], 1⟩ ∧
      startClient ⟨[(1, 0)], 1⟩ 1 true = (⟨[(1, 0)], 1⟩, true)) ∧
    (2 ∉ poolKeys ⟨[(1, 0)], 1⟩ ∧ stopClient ⟨[(1, 0)], 1⟩ 2 = ⟨[(1, 0)], 1⟩) :=
  ⟨⟨by decide, (pool_start_stop_idempotent ⟨[(1, 0)], 1⟩ 1 true).1 (by decide)⟩,
   ⟨by decide, (pool_start_stop_idempotent ⟨[(1, 0)], 1⟩ 2 true).2.2.1 (by decide)⟩⟩

/-- **C6.** A Connection invokes its `on_message` callback iff the chat
type is group or supergroup, the chat ID is in the current watch-list,
and the message text is non-empty — and, in per-user mode only, the
sender is not the Connection's own owner account; a message failing any
filter is dropped without invoking the callback (and, being a total
function of the event, without raising). -/
theorem message_admission_filters (owner : Int) (monitored : List Int) (m : TMessage) :
    ((userHandleMessage owner monitored m).isSome ↔
      ((m.chatType = .group ∨ m.chatType = .supergroup) ∧ m.chatId ∈ monitored ∧
        m.text ≠ [] ∧ m.fromUser ≠ some owner)) ∧
    ((sharedHandleMessage monitored m).isSome ↔
      ((m.chatType = .group ∨ m.chatType = .supergroup) ∧ m.chatId ∈ monitored ∧
        m.text ≠ [])) := by
  constructor
  · unfold userHandleMessage
    split_ifs with h1 h2 h3 h4 <;>
      simp_all [List.contains]
  · unfold sharedHandleMessage
    split_ifs with h1 h2 h3 <;>
      simp_all [List.contains]

/-- **C9.** For every Order whose responded flag is already set,
invoking the respond action again is rejected: the state is unchanged
(no second outbound reply is appended, the responded flag and
`responded_at` are not touched) and no reply is sent. -/
theorem order_respond_at_most_once (st : TakeState) (oid : Nat) (hasSession sendOk : Bool)
    (now : Nat) (o : OrderRec)
    (hfind : st.orders.find? (fun o2 => o2.oid == oid) = some o)
    (hresp : o.responded = true) :
    (orderTake st oid hasSession sendOk now).1 = st ∧
    (orderTake st oid hasSession sendOk now).2 ≠ .sent := by
  unfold orderTake
  by_cases hs : hasSession
  · rw [if_neg (by simp [hs]), hfind]
    simp [hresp]
  · rw [if_pos (by simp [hs])]
    simp

theorem order_respond_at_most_once_witness :
    (orderTake ⟨[⟨7, -100, 5, true, some 3⟩], []⟩ 7 true true 9).1 =
      ⟨[⟨7, -100, 5, true, some 3⟩], []⟩ ∧
    (orderTake ⟨[⟨7, -100, 5, true, some 3⟩], []⟩ 7 true true 9).2 ≠ .sent :=
  order_respond_at_most_once ⟨[⟨7, -100, 5, true, some 3⟩], []⟩ 7 true true 9
    ⟨7, -100, 5, true, some 3⟩ (by decide) rfl

lemma dedupFirst_go_mem {α : Type} [BEq α] [LawfulBEq α] (l : List α) :
    ∀ (seen : List α) (x : α), x ∈ dedupFirst.go seen l ↔ x ∈ l ∧ x ∉ seen := by
  induction l with
  | nil => simp [dedupFirst.go]
  | cons y ys ih =>
    intro seen x
    by_cases hy : seen.contains y
    · rw [dedupFirst.go, if_pos hy, ih]
      have hys : y ∈ seen := by simpa [List.contains] using hy
      constructor
      · rintro ⟨h1, h2⟩; exact ⟨List.mem_cons_of_mem _ h1, h2⟩
      · rintro ⟨h1, h2⟩
        rcases List.mem_cons.mp h1 with rfl | h1
        · exact absurd hys h2
        · exact ⟨h1, h2⟩
    · rw [dedupFirst.go, if_neg hy]
      have hys : y ∉ seen := by simpa [List.contains] using hy
      rw [List.mem_cons, ih]
      constructor
      · rintro (rfl | ⟨h1, h2⟩)
        · exact ⟨List.mem_cons_self _ _, hys⟩
        · exact ⟨List.mem_cons_of_mem _ h1, fun hc => h2 (List.mem_cons_of_mem _ hc)⟩
      · rintro ⟨h1, h2⟩
        by_cases hxy : x = y
        · exact Or.inl hxy
        · have h1y : x ∈ ys := (List.mem_cons.mp h1).resolve_left hxy
          refine Or.inr ⟨h1y, fun hc => ?_⟩
          rcases List.mem_cons.mp hc with h | hc
          · exact hxy h
          · exact h2 hc

lemma dedupFirst_mem {α : Type} [BEq α] [LawfulBEq α] (l : List α) (x : α) :
    x ∈ dedupFirst l ↔ x ∈ l := by
  simpa [dedupFirst] using dedupFirst_go_mem l [] x

lemma dedupFirst_go_length {α : Type} [BEq α] (l : List α) :
    ∀ seen : List α, (dedupFirst.go seen l).length ≤ l.length := by
  induction l with
  | nil => simp [dedupFirst.go]
  | cons y ys ih =>
    intro seen
    rw [dedupFirst.go]
    split_ifs
    · exact le_trans (ih seen) (Nat.le_succ _)
    · simpa using ih (y :: seen)

lemma dedupFirst_cons {α : Type} [BEq α] (x : α) (l : List α) :
    dedupFirst (x :: l) = x :: dedupFirst.go [x] l := by
  simp [dedupFirst, dedupFirst.go]

lemma dedupFirst_cons_cons {α : Type} [BEq α] [LawfulBEq α] (x : α) (l : List α) :
    dedupFirst (x :: x :: l) = dedupFirst (x :: l) := by
  simp [dedupFirst, dedupFirst.go, List.contains]

lemma flatten_map_le {β γ : Type} (l : List β) (g : β → List γ) (k : Nat)
    (h : ∀ b ∈ l, (g b).length ≤ k) : ((l.map g).flatten).length ≤ l.length * k := by
  induction l with
  | nil => simp
  | cons b bs ih =>
    simp only [List.map_cons, List.flatten_cons, List.length_append, List.length_cons]
    have h1 : (g b).length ≤ k := h b (List.mem_cons_self _ _)
    have h2 : ((bs.map g).flatten).length ≤ bs.length * k :=
      ih fun b2 hb2 => h b2 (List.mem_cons_of_mem _ hb2)
    calc (g b).length + ((bs.map g).flatten).length ≤ k + bs.length * k :=
          Nat.add_le_add h1 h2
      _ = (bs.length + 1) * k := by ring

lemma phraseCombos_length (words : List Str) :
    (phraseCombos words).length ≤ 9 ∧
    (words.length = 3 → (phraseCombos words).length ≤ 8) ∧
    (words.length ≠ 2 → words.length ≠ 3 → phraseCombos words = []) := by
  unfold phraseCombos
  simp only [List.length_map]
  by_cases h2 : words.length = 2
  · rw [if_pos (by simpa using h2)]
    refine ⟨?_, fun h3 => absurd h3 (by omega), fun hc => absurd h2 hc⟩
    refine le_trans (flatten_map_le _ _ 3 fun b hb => by simpa using List.length_take_le _ _) ?_
    have := List.length_take_le 3 ((words.map singleWordVariations).getD 0 [])
    calc ((((words.map singleWordVariations).getD 0 []).take 3).length) * 3 ≤ 3 * 3 :=
          Nat.mul_le_mul_right _ this
      _ ≤ 9 := by norm_num
  · rw [if_neg (by simpa using h2)]
    by_cases h3 : words.length = 3
    · rw [if_pos (by simpa using h3)]
      have hb : ∀ v1 ∈ ((words.map singleWordVariations).getD 0 []).take 2,
          ((((words.map singleWordVariations).getD 1 []).take 2).map
            (fun v2 => (((words.map singleWordVariations).getD 2 []).take 2).map
              (fun v3 => v1 ++ ' ' :: (v2 ++ ' ' :: v3)))).flatten.length ≤ 4 := by
        intro v1 _
        refine le_trans (flatten_map_le _ _ 2 fun c _ => by simpa using List.length_take_le _ _) ?_
        have := List.length_take_le 2 ((words.map singleWordVariations).getD 1 [])
        omega
      have hlen : ((((words.map singleWordVariations).getD 0 []).take 2).map
            (fun v1 => ((((words.map singleWordVariations).getD 1 []).take 2).map
              (fun v2 => (((words.map singleWordVariations).getD 2 []).take 2).map
                (fun v3 => v1 ++ ' ' :: (v2 ++ ' ' :: v3)))).flatten)).flatten.length ≤
          (((words.map singleWordVariations).getD 0 []).take 2).length * 4 :=
        flatten_map_le _ _ 4 hb
      have htk := List.length_take_le 2 ((words.map singleWordVariations).getD 0 [])
      exact ⟨by omega, fun _ => by omega, fun _ hc => absurd h3 hc⟩
    · rw [if_neg (by simpa using h3)]
      exact ⟨by simp, fun h => absurd h h3, fun _ _ => rfl⟩

lemma dedupFirst_length {α : Type} [BEq α] (l : List α) :
    (dedupFirst l).length ≤ l.length := by
  unfold dedupFirst
  exact dedupFirst_go_length l []

/-- **C10.** For every multi-word phrase, `generate_word_variations`
returns a set that contains the lowercased whitespace-stripped phrase
and has at most 10 elements; every other element is one of the bounded
per-word combination products (at most 3×3 for two-word phrases,
at most 2×2×2 — so at most 9 total elements — for three-word phrases),
and a phrase of four or more words yields exactly the singleton of the
lowercased stripped phrase. -/
theorem generate_word_variations_phrase (w : Str)
    (hmw : (stripWs (lowerStr w)).contains ' ' = true) :
    stripWs (lowerStr w) ∈ generateWordVariations w ∧
    (generateWordVariations w).length ≤ 10 ∧
    ((splitWs (stripWs (lowerStr w))).length = 3 →
      (generateWordVariations w).length ≤ 9) ∧
    (4 ≤ (splitWs (stripWs (lowerStr w))).length →
      generateWordVariations w = [stripWs (lowerStr w)]) ∧
    (∀ v ∈ generateWordVariations w, v = stripWs (lowerStr w) ∨
      v ∈ phraseCombos (splitWs (stripWs (lowerStr w)))) := by
  set word := stripWs (lowerStr w) with hword
  have hgen : generateWordVariations w =
      dedupFirst (word :: dedupFirst.go [word] (phraseCombos (splitWs word))) := by
    unfold generateWordVariations
    rw [← hword]
    simp only [hmw, if_true]
    unfold phraseVariations
    rw [dedupFirst_cons word (phraseCombos (splitWs word)), dedupFirst_cons_cons]
  have hlen : (generateWordVariations w).length ≤
      1 + (phraseCombos (splitWs word)).length := by
    rw [hgen]
    have h4 := dedupFirst_length (word :: dedupFirst.go [word] (phraseCombos (splitWs word)))
    have h2 := dedupFirst_go_length (phraseCombos (splitWs word)) [word]
    simp only [List.length_cons] at h4
    omega
  refine ⟨?_, ?_, ?_, ?_, ?_⟩
  · rw [hgen, dedupFirst_mem]
    exact List.mem_cons_self _ _
  · have h3 := (phraseCombos_length (splitWs word)).1
    omega
  · intro h3w
    have h3 := (phraseCombos_length (splitWs word)).2.1 h3w
    omega
  · intro h4w
    have hc : phraseCombos (splitWs word) = [] :=
      (phraseCombos_length (splitWs word)).2.2 (by omega) (by omega)
    rw [hgen, hc]
    simp [dedupFirst, dedupFirst.go]
  · intro v hv
    rw [hgen, dedupFirst_mem] at hv
    rcases List.mem_cons.mp hv with h | h
    · exact Or.inl h
    · exact Or.inr ((dedupFirst_go_mem _ _ _).mp h).1

theorem generate_word_variations_phrase_witness :
    stripWs (lowerStr "Заказ Такси".toList) ∈
      generateWordVariations "Заказ Такси".toList ∧
    (generateWordVariations "Заказ Такси".toList).length ≤ 10 :=
  ⟨(generate_word_variations_phrase "Заказ Такси".toList (by decide)).1,
   (generate_word_variations_phrase "Заказ Такси".toList (by decide)).2.1⟩

/-! ### Least-loaded worker selection (C4) -/

/-- First worker of `l` with spare capacity and minimal active-count
among the members of `l` with spare capacity. -/
def eligMin (s : DBState) (l : List MWorker) : Option MWorker :=
  l.find? fun w => decide (countActive s w.wid < w.maxGroups ∧
    ∀ w2 ∈ l, countActive s w2.wid < w2.maxGroups →
      countActive s w.wid ≤ countActive s w2.wid)

/-- The accumulator the selection loop holds after scanning `l`. -/
def accOf (s : DBState) (l : List MWorker) : Option MWorker × Option Nat :=
  match eligMin s l with
  | some w => (some w, some (countActive s w.wid))
  | none => (none, none)

lemma find?_congr {α : Type} {p q : α → Bool} :
    ∀ l : List α, (∀ x ∈ l, p x = q x) → l.find? p = l.find? q := by
  intro l
  induction l with
  | nil => intro _; rfl
  | cons x xs ih =>
    intro h
    have hx := h x (List.mem_cons_self _ _)
    by_cases hp : p x
    · rw [List.find?_cons_of_pos _ hp, List.find?_cons_of_pos _ (hx ▸ hp)]
    · rw [List.find?_cons_of_neg _ hp, List.find?_cons_of_neg _ (hx ▸ hp)]
      exact ih fun y hy => h y (List.mem_cons_of_mem _ hy)

lemma exists_min_nat {β : Type} (f : β → Nat) :
    ∀ l : List β, l ≠ [] → ∃ b ∈ l, ∀ c ∈ l, f b ≤ f c := by
  intro l
  induction l with
  | nil => intro h; exact absurd rfl h
  | cons x xs ih =>
    intro _
    rcases eq_or_ne xs [] with rfl | hne
    · exact ⟨x, List.mem_cons_self _ _, by simp⟩
    · obtain ⟨b, hb, hmin⟩ := ih hne
      by_cases hx : f x ≤ f b
      · refine ⟨x, List.mem_cons_self _ _, ?_⟩
        intro c hc
        rcases List.mem_cons.mp hc with rfl | hc
        · exact le_refl _
        · exact le_trans hx (hmin c hc)
      · refine ⟨b, List.mem_cons_of_mem _ hb, ?_⟩
        intro c hc
        rcases List.mem_cons.mp hc with rfl | hc
        · exact le_of_not_le hx
        · exact hmin c hc

lemma eligMin_eq_none (s : DBState) (l : List MWorker) :
    eligMin s l = none ↔ ∀ w ∈ l, ¬ (countActive s w.wid < w.maxGroups) := by
  unfold eligMin
  rw [List.find?_eq_none]
  constructor
  · intro h w hw helig
    have hfne : l.filter (fun w2 => decide (countActive s w2.wid < w2.maxGroups)) ≠ [] := by
      intro hc
      have : w ∈ l.filter (fun w2 => decide (countActive s w2.wid < w2.maxGroups)) :=
        List.mem_filter.mpr ⟨hw, by simpa using helig⟩
      rw [hc] at this
      exact absurd this (List.not_mem_nil _)
    obtain ⟨b, hb, hmin⟩ := exists_min_nat (fun w2 => countActive s w2.wid) _ hfne
    have hbl := List.mem_filter.mp hb
    refine h b hbl.1 ?_
    simp only [decide_eq_true_eq]
    refine ⟨by simpa using hbl.2, fun w2 hw2 he2 => ?_⟩
    exact hmin w2 (List.mem_filter.mpr ⟨hw2, by simpa using he2⟩)
  · intro h w hw
    simp only [decide_eq_true_eq, not_and]
    intro helig
    exact absurd helig (h w hw)

lemma accOf_snoc (s : DBState) (pre : List MWorker) (w : MWorker) :
    accOf s (pre ++ [w]) =
      if (match (accOf s pre).2 with
          | none => true
          | some m => countActive s w.wid < m) && countActive s w.wid < w.maxGroups then
        (some w, some (countActive s w.wid))
      else accOf s pre := by
  cases hpre : eligMin s pre with
  | none =>
    have hne : ∀ x ∈ pre, ¬ (countActive s x.wid < x.maxGroups) :=
      (eligMin_eq_none s pre).mp hpre
    have hfind : eligMin s (pre ++ [w]) =
        if countActive s w.wid < w.maxGroups then some w else none := by
      unfold eligMin
      rw [List.find?_append]
      have h1 : pre.find? (fun x => decide (countActive s x.wid < x.maxGroups ∧
          ∀ w2 ∈ pre ++ [w], countActive s w2.wid < w2.maxGroups →
            countActive s x.wid ≤ countActive s w2.wid)) = none := by
        rw [List.find?_eq_none]
        intro x hx
        simp only [decide_eq_true_eq, not_and]
        intro helig
        exact absurd helig (hne x hx)
      rw [h1, Option.none_or]
      by_cases helw : countActive s w.wid < w.maxGroups
      · rw [if_pos helw, List.find?_cons_of_pos]
        simp only [decide_eq_true_eq]
        refine ⟨helw, fun w2 hw2 he2 => ?_⟩
        rcases List.mem_append.mp hw2 with h | h
        · exact absurd he2 (hne w2 h)
        · rw [List.mem_singleton.mp h]
      · rw [if_neg helw, List.find?_eq_none]
        intro x hx
        rcases List.mem_singleton.mp hx with rfl
        simp only [decide_eq_true_eq, not_and]
        intro helig
        exact absurd helig helw
    have hacc : accOf s pre = (none, none) := by simp [accOf, hpre]
    rw [hacc]
    by_cases helw : countActive s w.wid < w.maxGroups
    · simp only [accOf, hfind, if_pos helw]
      simp [helw]
    · simp only [accOf, hfind, if_neg helw]
      simp [helw]
  | some v =>
    have hpre' : pre.find? (fun x => decide (countActive s x.wid < x.maxGroups ∧
        ∀ w2 ∈ pre, countActive s w2.wid < w2.maxGroups →
          countActive s x.wid ≤ countActive s w2.wid)) = some v := hpre
    have hPv : countActive s v.wid < v.maxGroups ∧
        ∀ w2 ∈ pre, countActive s w2.wid < w2.maxGroups →
          countActive s v.wid ≤ countActive s w2.wid := by
      have := List.find?_some hpre'
      simpa [decide_eq_true_eq] using this
    have hvmem : v ∈ pre := List.mem_of_find?_eq_some hpre'
    have hacc : accOf s pre = (some v, some (countActive s v.wid)) := by
      simp [accOf, hpre]
    rw [hacc]
    by_cases hstep : countActive s w.wid < countActive s v.wid ∧
        countActive s w.wid < w.maxGroups
    · have hfind : eligMin s (pre ++ [w]) = some w := by
        unfold eligMin
        rw [List.find?_append]
        have h1 : pre.find? (fun x => decide (countActive s x.wid < x.maxGroups ∧
            ∀ w2 ∈ pre ++ [w], countActive s w2.wid < w2.maxGroups →
              countActive s x.wid ≤ countActive s w2.wid)) = none := by
          rw [List.find?_eq_none]
          intro x hx
          simp only [decide_eq_true_eq, not_and]
          intro helig hmin
          have h2 : countActive s x.wid ≤ countActive s w.wid :=
            hmin w (List.mem_append_right _ (List.mem_singleton_self _)) hstep.2
          have h3 : countActive s v.wid ≤ countActive s x.wid :=
            hPv.2 x hx helig
          omega
        rw [h1, Option.none_or, List.find?_cons_of_pos]
        simp only [decide_eq_true_eq]
        refine ⟨hstep.2, fun w2 hw2 he2 => ?_⟩
        rcases List.mem_append.mp hw2 with h | h
        · have := hPv.2 w2 h he2
          omega
        · rw [List.mem_singleton.mp h]
      simp only [accOf, hfind]
      rw [if_pos (by simp [hstep.1, hstep.2])]
    · have hfind : eligMin s (pre ++ [w]) = some v := by
        unfold eligMin
        rw [List.find?_append]
        have h1 : pre.find? (fun x => decide (countActive s x.wid < x.maxGroups ∧
            ∀ w2 ∈ pre ++ [w], countActive s w2.wid < w2.maxGroups →
              countActive s x.wid ≤ countActive s w2.wid)) = some v := by
          rw [find?_congr pre (q := fun x => decide (countActive s x.wid < x.maxGroups ∧
            ∀ w2 ∈ pre, countActive s w2.wid < w2.maxGroups →
              countActive s x.wid ≤ countActive s w2.wid))]
          · exact hpre'
          · intro x hx
            simp only [decide_eq_decide]
            constructor
            · rintro ⟨helig, hmin⟩
              exact ⟨helig, fun w2 hw2 he2 => hmin w2 (List.mem_append_left _ hw2) he2⟩
            · rintro ⟨helig, hmin⟩
              refine ⟨helig, fun w2 hw2 he2 => ?_⟩
              rcases List.mem_append.mp hw2 with h | h
              · exact hmin w2 h he2
              · rw [List.mem_singleton.mp h] at he2 ⊢
                have h4 : countActive s v.wid ≤ countActive s w.wid := by
                  rcases not_and_or.mp hstep with h5 | h5
                  · omega
                  · exact absurd he2 h5
                have h6 : countActive s x.wid ≤ countActive s v.wid :=
                  hmin v hvmem hPv.1
                omega
        rw [h1]
        rfl
      simp only [accOf, hfind]
      rw [if_neg]
      intro hcond
      simp only [Bool.and_eq_true, decide_eq_true_eq] at hcond
      exact hstep ⟨by simpa using hcond.1, hcond.2⟩

lemma leastFold_acc (s : DBState) :
    ∀ (rest pre : List MWorker), leastFold s rest (accOf s pre) = accOf s (pre ++ rest) := by
  intro rest
  induction rest with
  | nil => intro pre; simp [leastFold]
  | cons w rest' ih =>
    intro pre
    show (if (match (accOf s pre).2 with
          | none => true
          | some m => countActive s w.wid < m) && countActive s w.wid < w.maxGroups then
        leastFold s rest' (some w, some (countActive s w.wid))
      else leastFold s rest' (accOf s pre)) = accOf s (pre ++ w :: rest')
    have hassoc : pre ++ w :: rest' = (pre ++ [w]) ++ rest' := by simp
    rw [hassoc]
    split_ifs with h
    · rw [show (some w, some (countActive s w.wid)) = accOf s (pre ++ [w]) from by
        rw [accOf_snoc, if_pos h]]
      exact ih (pre ++ [w])
    · rw [show accOf s pre = accOf s (pre ++ [w]) from by
        rw [accOf_snoc, if_neg h]]
      exact ih (pre ++ [w])

lemma accOf_fst (s : DBState) (l : List MWorker) : (accOf s l).1 = eligMin s l := by
  cases h : eligMin s l <;> simp [accOf, h]

lemma workerWithLeastGroups_eq (s : DBState) :
    workerWithLeastGroups s = leastLoadedClaim s := by
  unfold workerWithLeastGroups leastLoadedClaim
  by_cases h : activeWorkers s = []
  · rw [if_pos h, h]
    rfl
  · rw [if_neg h]
    have h0 : accOf s [] = (none, none) := by simp [accOf, eligMin]
    have := leastFold_acc s (activeWorkers s) []
    rw [h0, List.nil_append] at this
    rw [this, accOf_fst]
    rfl

/-- **C4.** `assign_new_group` returns the already-assigned worker's ID
unchanged when an active assignment exists (idempotent); otherwise it
selects, among active workers iterated in the stable name order, the
first worker whose active-assignment count is strictly lower than the
best seen so far and strictly below its own `max_groups` capacity
(equivalently: the first worker with spare capacity attaining the
minimal count among workers with spare capacity), assigns the chat to
it, refreshes only that worker's watch-list and returns its ID; it
returns none exactly when no active worker has spare capacity. -/
theorem assign_new_group_least_loaded (s : DBState) (gid : Int) (name : Str) :
    assignNewGroup s gid name = assignNewGroupClaim s gid name ∧
    ((assignNewGroup s gid name).2 = none ↔
      (getByGroupId s gid = none ∧
        ∀ w ∈ activeWorkers s, w.maxGroups ≤ countActive s w.wid)) := by
  unfold assignNewGroup assignNewGroupClaim
  cases hg : getByGroupId s gid with
  | some a =>
    refine ⟨rfl, ?_⟩
    simp [hg]
  | none =>
    rw [workerWithLeastGroups_eq]
    cases hl : leastLoadedClaim s with
    | none =>
      refine ⟨rfl, ?_⟩
      simp only [true_iff, Option.some.injEq]
      have : eligMin s (activeWorkers s) = none := hl
      refine ⟨trivial, fun w hw => ?_⟩
      exact Nat.le_of_not_lt ((eligMin_eq_none s (activeWorkers s)).mp this w hw)
    | some w =>
      have hdb : assignGroupDb s w.wid gid name =
          { s with assignments := s.assignments ++ [⟨w.wid, gid, name, true⟩] } := by
        unfold assignGroupDb
        rw [hg]
        rfl
      have hP := List.find?_some (hl : eligMin s (activeWorkers s) = some w)
      have hwmem : w ∈ activeWorkers s :=
        List.mem_of_find?_eq_some (hl : eligMin s (activeWorkers s) = some w)
      simp only [decide_eq_true_eq] at hP
      refine ⟨by simp [hdb], ?_⟩
      constructor
      · intro h
        exact absurd h (by simp)
      · rintro ⟨-, hcap⟩
        exact absurd (hcap w hwmem) (by omega)

/-! ### Round-robin redistribution (C3) -/

lemma assignFold (wids : List Nat) :
    ∀ (rows : List (Int × Str)) (n : Nat) (st : DBState),
      (rows.map Prod.fst).Nodup →
      (∀ r ∈ rows, getByGroupId st r.1 = none) →
      (rows.enumFrom n).foldl
        (fun acc p => assignGroupDb acc (wids.getD (p.1 % wids.length) 0) p.2.1 p.2.2) st =
      { st with assignments := st.assignments ++
          (rows.enumFrom n).map fun p =>
            (⟨wids.getD (p.1 % wids.length) 0, p.2.1, p.2.2, true⟩ : Assignment) } := by
  intro rows
  induction rows with
  | nil => intro n st _ _; simp
  | cons r rest ih =>
    intro n st hnd hnone
    rw [List.enumFrom_cons, List.foldl_cons, List.map_cons]
    have hg : getByGroupId st r.1 = none := hnone r (List.mem_cons_self _ _)
    have hdb : assignGroupDb st (wids.getD (n % wids.length) 0) (n, r).2.1 (n, r).2.2 =
        { st with assignments := st.assignments ++
            [⟨wids.getD (n % wids.length) 0, r.1, r.2, true⟩] } := by
      unfold assignGroupDb
      rw [hg]
      rfl
    rw [hdb]
    have hr1 : r.1 ∉ rest.map Prod.fst := by
      have := hnd
      rw [List.map_cons, List.nodup_cons] at this
      exact this.1
    have hnone' : ∀ r2 ∈ rest,
        getByGroupId { st with assignments := st.assignments ++
          [⟨wids.getD (n % wids.length) 0, r.1, r.2, true⟩] } r2.1 = none := by
      intro r2 hr2
      unfold getByGroupId
      simp only
      rw [List.find?_append]
      have h1 : st.assignments.find? (fun a => a.tgId == r2.1 && a.isActive) = none :=
        hnone r2 (List.mem_cons_of_mem _ hr2)
      rw [h1, Option.none_or, List.find?_eq_none]
      intro a ha
      rcases List.mem_singleton.mp ha with rfl
      simp only [Bool.and_eq_true, beq_iff_eq, not_and]
      intro hc
      exact absurd (hc ▸ List.mem_map_of_mem Prod.fst hr2) hr1
    have hnd' : (rest.map Prod.fst).Nodup := by
      rw [List.map_cons, List.nodup_cons] at hnd
      exact hnd.2
    rw [ih (n + 1) _ hnd' hnone']
    simp

/-- **C3 (amended).** `redistribute_groups` recomputes from scratch the
chats needing monitoring — the union of enabled watch-targets across
all subscribers that are enabled and subscribed (the query does **not**
exclude banned subscribers) — then, when there is at least one active
worker and at least one such chat, discards all existing assignments,
assigns chat `i` (in enumeration order) to active worker `i mod N` in
the stable name order, and refreshes every worker's watch-list.  The
name-consistency hypothesis says no chat ID occurs with two different
display names. -/
theorem redistribute_round_robin (s : DBState)
    (hw : activeWorkers s ≠ [])
    (hr : groupsToMonitor s ≠ [])
    (hnd : ((groupsToMonitor s).map Prod.fst).Nodup) :
    redistributeGroups s = redistributeAmend s := by
  unfold redistributeGroups redistributeAmend roundRobinOver
  simp only [if_neg hw, if_neg hr]
  have h0 : ∀ r ∈ groupsToMonitor s,
      getByGroupId { s with assignments := ([] : List Assignment) } r.1 = none := by
    intro r _
    rfl
  rw [List.enum_eq_enumFrom,
    assignFold ((activeWorkers s).map (·.wid)) (groupsToMonitor s) 0 _ hnd h0]
  simp

/-- **C3 (counterexample).** A banned but enabled, subscribed user's
enabled group: the claim's needed set (non-banned only) is empty, so
the claim's rebuild assigns nothing, while the code's query — which has
no ban filter — assigns that group to the worker. -/
theorem redistribute_counterexample :
    redistributeGroups
        ⟨[⟨1, "w".toList, true, 50⟩], [⟨1, true, 10, true⟩], [⟨1, 5, "g".toList, true⟩],
         [], [(1, [])], 0⟩ ≠
      redistributeClaim
        ⟨[⟨1, "w".toList, true, 50⟩], [⟨1, true, 10, true⟩], [⟨1, 5, "g".toList, true⟩],
         [], [(1, [])], 0⟩ := by decide

/-- Concrete round-robin run: ten chats over three active workers land
as 0,3,6,9 → worker 1; 1,4,7 → worker 2; 2,5,8 → worker 3. -/
def tenChatState : DBState :=
  { workers := [⟨1, "a".toList, true, 50⟩, ⟨2, "b".toList, true, 50⟩, ⟨3, "c".toList, true, 50⟩]
    subs := [⟨1, true, 10, false⟩]
    groups := (List.range 10).map fun i => ⟨1, Int.ofNat i, [Char.ofNat (65 + i)], true⟩
    assignments := []
    watchlists := [(1, []), (2, []), (3, [])]
    now := 0 }

theorem redistribute_round_robin_witness :
    redistributeGroups tenChatState = redistributeAmend tenChatState ∧
    (redistributeGroups tenChatState).assignments.map
        (fun a => (a.workerId, a.tgId)) =
      [(1, 0), (2, 1), (3, 2), (1, 3), (2, 4), (3, 5), (1, 6), (2, 7), (3, 8), (1, 9)] :=
  ⟨redistribute_round_robin tenChatState (by decide) (by decide) (by decide),
   by decide⟩

/-! ### Word-boundary matching (C1, C2) -/

lemma getD_append_left' (l1 l2 : Str) (n : Nat) (h : n < l1.length) :
    (l1 ++ l2).getD n ' ' = l1.getD n ' ' := by
  simp only [List.getD_eq_getElem?_getD]
  rw [List.getElem?_append_left h]

lemma getD_append_right' (l1 l2 : Str) (n : Nat) (h : l1.length ≤ n) :
    (l1 ++ l2).getD n ' ' = l2.getD (n - l1.length) ' ' := by
  simp only [List.getD_eq_getElem?_getD]
  rw [List.getElem?_append_right h]

lemma freeAt_oob (t : Str) (i : Nat) (h : t.length ≤ i) : freeAt t i = true := by
  unfold freeAt
  have : t.getD i ' ' = ' ' := by
    simp only [List.getD_eq_getElem?_getD]
    rw [List.getElem?_eq_none h]
    rfl
  rw [this]
  decide

/-- The regex scan over the space-padded lowercased text finds a match
exactly when the claim's boundary condition holds somewhere in the
unpadded text — provided the keyword is non-empty and has no leading or
trailing space (stored keywords are stripped). -/
lemma regexFound_pad (kw t : Str) (hne : kw ≠ [])
    (hh : kw.head? ≠ some ' ') (hl : kw.getLast? ≠ some ' ') :
    regexFound kw (' ' :: (t ++ [' '])) = boundaryOccurs kw t := by
  have hbool : ∀ a b : Bool, (a = true ↔ b = true) → a = b := by decide
  apply hbool
  unfold regexFound boundaryOccurs
  simp only [List.any_eq_true, List.mem_range, Bool.and_eq_true, Bool.or_eq_true,
    beq_iff_eq, List.isPrefixOf_iff_prefix, List.length_cons, List.length_append,
    List.length_singleton]
  constructor
  · rintro ⟨p, hp, ⟨hpre, hleft⟩, hright⟩
    cases p with
    | zero =>
      obtain ⟨c, kw', rfl⟩ : ∃ c kw', kw = c :: kw' := by
        cases kw with
        | nil => exact absurd rfl hne
        | cons c kw' => exact ⟨c, kw', rfl⟩
      rw [List.drop_zero, List.cons_prefix_cons] at hpre
      exact absurd (by simp [hpre.1]) hh
    | succ q =>
      rw [List.drop_succ_cons] at hpre
      by_cases hq : q ≤ t.length
      · rw [List.drop_append_of_le_length hq] at hpre
        rcases List.prefix_concat_iff.mp hpre with heq | hpre'
        · have : kw.getLast? = some ' ' := by
            rw [heq, List.getLast?_concat]
          exact absurd this hl
        · have hklen : kw.length ≤ t.length - q := by
            have := hpre'.length_le
            simpa [List.length_drop] using this
          refine ⟨q, by omega, ⟨hpre', ?_⟩, ?_⟩
          · cases q with
            | zero => exact Or.inl rfl
            | succ q' =>
              right
              rcases hleft with h0 | hfree
              · omega
              · unfold freeAt at hfree ⊢
                rw [Nat.add_sub_cancel] at hfree
                rw [List.getD_cons_succ] at hfree
                rw [Nat.succ_sub_one]
                rwa [getD_append_left' t [' '] q' (by omega)] at hfree
          · by_cases hend : q + kw.length < t.length
            · unfold freeAt at hright ⊢
              have : (q + 1 + kw.length) = (q + kw.length) + 1 := by omega
              rw [this, List.getD_cons_succ] at hright
              rwa [getD_append_left' t [' '] _ hend] at hright
            · exact freeAt_oob t _ (by omega)
      · exfalso
        have hdrop : (t ++ [' ']).drop q = [] := by
          apply List.drop_eq_nil_of_le
          simp only [List.length_append, List.length_singleton]
          omega
        rw [hdrop, List.prefix_nil] at hpre
        exact hne hpre
  · rintro ⟨q, hq, ⟨hpre, hleft⟩, hright⟩
    have hklen : kw.length ≤ t.length - q := by
      have := hpre.length_le
      simpa [List.length_drop] using this
    refine ⟨q + 1, by omega, ⟨?_, ?_⟩, ?_⟩
    · rw [List.drop_succ_cons, List.drop_append_of_le_length (by omega)]
      exact hpre.trans (List.prefix_append _ _)
    · cases q with
      | zero =>
        right
        unfold freeAt
        rw [Nat.add_sub_cancel, List.getD_cons_zero]
        decide
      | succ q' =>
        right
        rcases hleft with h0 | hfree
        · omega
        · unfold freeAt at hfree ⊢
          rw [Nat.add_sub_cancel, List.getD_cons_succ,
            getD_append_left' t [' '] q' (by omega)]
          rw [Nat.succ_sub_one] at hfree
          exact hfree
    · unfold freeAt
      have : (q + 1 + kw.length) = (q + kw.length) + 1 := by omega
      rw [this, List.getD_cons_succ]
      by_cases hend : q + kw.length < t.length
      · rw [getD_append_left' t [' '] _ hend]
        unfold freeAt at hright
        exact hright
      · rw [getD_append_right' t [' '] _ (by omega)]
        have : q + kw.length - t.length = 0 := by omega
        rw [this, List.getD_cons_zero]
        decide

/-- **C2.** A keyword is reported as matched iff its lowercased form
occurs in the lowercased text not immediately preceded or followed by a
Cyrillic or Latin lowercase letter or digit (punctuation, parentheses
and string start/end are boundaries; an occurrence inside a longer word
is not a match); the keyword reported is the first in stored order
whose boundary-safe pattern matches, in its original stored form.  In
particular, for keyword "такси": "Такси нужно" and "(такси)" match,
"потакси" does not.  The hypotheses say every stored keyword is
non-empty with no leading/trailing space, as the keyword handlers store
them. -/
theorem find_keyword_boundary (kws : List Str) (text : Str)
    (hk : ∀ kw ∈ kws, lowerStr kw ≠ [] ∧ (lowerStr kw).head? ≠ some ' ' ∧
      (lowerStr kw).getLast? ≠ some ' ') :
    findKeywordMatch kws (lowerStr text) = findKeywordSpec kws text ∧
    findKeywordMatch ["такси".toList] (lowerStr "Такси нужно".toList) =
      some "такси".toList ∧
    findKeywordMatch ["такси".toList] (lowerStr "потакси".toList) = none ∧
    findKeywordMatch ["такси".toList] (lowerStr "(такси)".toList) =
      some "такси".toList := by
  refine ⟨?_, by decide, by decide, by decide⟩
  unfold findKeywordMatch findKeywordSpec
  apply find?_congr
  intro kw hkw
  obtain ⟨h1, h2, h3⟩ := hk kw hkw
  exact regexFound_pad (lowerStr kw) (lowerStr text) h1 h2 h3

theorem find_keyword_boundary_witness :
    findKeywordMatch ["такси".toList] (lowerStr "Такси нужно".toList) =
      findKeywordSpec ["такси".toList] "Такси нужно".toList :=
  (find_keyword_boundary ["такси".toList] "Такси нужно".toList (by decide)).1

/-- **C1.** `check_message` returns match=true only if a keyword
boundary-matched and, when the city filter list is non-empty, the text
contains some variation of a configured city as a plain
case-insensitive substring; the city reported is the stored canonical
name of the first city (in filter order) with any variation present; a
keyword match with no configured city present is a no-match; an empty
city list makes a keyword match alone return match=true with
city=none — stated as equality with the claim-side description
`checkMessageSpec` for non-empty texts, plus the trivial no-match on
empty text.  The hypotheses say stored keywords are non-empty with no
leading/trailing space and stored canonical city names are non-empty,
as the keyword and city handlers store them (the city handler strips
the name and requires length ≥ 2); the latter keeps the code's
`if found_city:` string-truthiness gate from firing. -/
theorem check_message_spec_eq (kws : List Str) (cities : List City) (text : Str)
    (hk : ∀ kw ∈ kws, lowerStr kw ≠ [] ∧ (lowerStr kw).head? ≠ some ' ' ∧
      (lowerStr kw).getLast? ≠ some ' ')
    (hcity : ∀ c ∈ cities, c.cityName ≠ [])
    (ht : text ≠ []) :
    checkMessage kws cities text = checkMessageSpec kws cities text ∧
    checkMessage kws cities [] = (false, none, none) := by
  refine ⟨?_, rfl⟩
  unfold checkMessage checkMessageSpec
  rw [if_neg ht]
  have heq : findKeywordMatch kws (lowerStr text) = findKeywordSpec kws text := by
    unfold findKeywordMatch findKeywordSpec
    apply find?_congr
    intro kw hkw
    obtain ⟨h1, h2, h3⟩ := hk kw hkw
    exact regexFound_pad (lowerStr kw) (lowerStr text) h1 h2 h3
  rw [heq]
  cases findKeywordSpec kws text with
  | none => rfl
  | some kw =>
    dsimp only
    by_cases hcs : cities = []
    · rw [if_pos hcs, if_pos hcs]
    · rw [if_neg hcs, if_neg hcs]
      cases hfind : cities.find? (fun c => searchCityInText text c.variations) with
      | none => rfl
      | some c =>
        dsimp only
        rw [if_neg (hcity c (List.mem_of_find?_eq_some hfind))]

theorem check_message_spec_eq_witness :
    checkMessage ["заказ".toList] [⟨"Москва".toList, ["москве".toList]⟩]
        "Заказ в Москве".toList =
      checkMessageSpec ["заказ".toList] [⟨"Москва".toList, ["москве".toList]⟩]
        "Заказ в Москве".toList ∧
    checkMessage ["заказ".toList] [⟨"Москва".toList, ["москве".toList]⟩]
        "Заказ в Москве".toList =
      (true, some "заказ".toList, some "Москва".toList) :=
  ⟨(check_message_spec_eq ["заказ".toList] [⟨"Москва".toList, ["москве".toList]⟩]
      "Заказ в Москве".toList (by decide) (by decide) (by decide)).1,
   by decide⟩

/-! ### Fuzzy best-match selection (C8) -/

lemma itemScore_eq_amend (qn nn : Str) : itemScore qn nn = amendScore qn nn := by
  unfold itemScore amendScore
  by_cases h1 : containsSub nn qn
  · rw [if_pos h1, if_pos h1]
  · rw [if_neg h1, if_neg h1]
    dsimp only
    by_cases h2 : 0 < (List.filter
        (fun w => (splitWs nn).any fun nw => containsSub nw w || containsSub w nw)
        (splitWs qn)).length
    · rw [if_pos h2, if_pos h2]
      have hws : splitWs qn ≠ [] := by
        intro hc
        rw [hc] at h2
        simp at h2
      have hmax : max ((splitWs qn).length : ℚ) 1 = ((splitWs qn).length : ℚ) := by
        have h := List.length_pos.mpr hws
        have h1 : 1 ≤ (splitWs qn).length := h
        exact max_eq_left (by exact_mod_cast h1)
      rw [hmax]
    · rw [if_neg h2, if_neg h2]

def maxScoreQ {α : Type} (sc : α → ℚ) (l : List α) : ℚ :=
  l.foldl (fun acc it => max acc (sc it)) 0

def pickFoldQ {α : Type} (sc : α → ℚ) (l : List α) : Option α × ℚ :=
  l.foldl (fun acc it => if sc it > acc.2 then (some it, sc it) else acc) (none, 0)

lemma le_foldl_max {α : Type} (sc : α → ℚ) :
    ∀ (l : List α) (a : ℚ), a ≤ l.foldl (fun acc it => max acc (sc it)) a := by
  intro l
  induction l with
  | nil => intro a; simp
  | cons x xs ih =>
    intro a
    exact le_trans (le_max_left a (sc x)) (ih (max a (sc x)))

lemma maxScoreQ_nonneg {α : Type} (sc : α → ℚ) (l : List α) : 0 ≤ maxScoreQ sc l :=
  le_foldl_max sc l 0

lemma maxScoreQ_append {α : Type} (sc : α → ℚ) (l : List α) (x : α) :
    maxScoreQ sc (l ++ [x]) = max (maxScoreQ sc l) (sc x) := by
  unfold maxScoreQ
  rw [List.foldl_append]
  rfl

lemma le_maxScoreQ {α : Type} (sc : α → ℚ) :
    ∀ (l : List α) (a : ℚ) (it : α), it ∈ l →
      sc it ≤ l.foldl (fun acc i => max acc (sc i)) a := by
  intro l
  induction l with
  | nil => intro a it h; exact absurd h (List.not_mem_nil _)
  | cons x xs ih =>
    intro a it h
    rcases List.mem_cons.mp h with rfl | h
    · exact le_trans (le_max_right a (sc it)) (le_foldl_max sc xs _)
    · exact ih _ it h

lemma mem_maxScoreQ {α : Type} (sc : α → ℚ) (l : List α) (it : α) (h : it ∈ l) :
    sc it ≤ maxScoreQ sc l :=
  le_maxScoreQ sc l 0 it h

lemma foldl_max_cases {α : Type} (sc : α → ℚ) :
    ∀ (l : List α) (a : ℚ),
      l.foldl (fun acc i => max acc (sc i)) a = a ∨
      ∃ it ∈ l, l.foldl (fun acc i => max acc (sc i)) a = sc it := by
  intro l
  induction l with
  | nil => intro a; exact Or.inl rfl
  | cons x xs ih =>
    intro a
    rcases ih (max a (sc x)) with h | ⟨it, hmem, h⟩
    · rw [List.foldl_cons, h]
      rcases max_choice a (sc x) with hc | hc
      · exact Or.inl hc
      · exact Or.inr ⟨x, List.mem_cons_self _ _, hc⟩
    · exact Or.inr ⟨it, List.mem_cons_of_mem _ hmem, by rw [List.foldl_cons, h]⟩

lemma maxScoreQ_attained {α : Type} (sc : α → ℚ) (l : List α) (h : 0 < maxScoreQ sc l) :
    ∃ it ∈ l, sc it = maxScoreQ sc l := by
  rcases foldl_max_cases sc l 0 with h0 | ⟨it, hmem, hit⟩
  · rw [maxScoreQ] at h
    rw [h0] at h
    exact absurd h (lt_irrefl 0)
  · exact ⟨it, hmem, hit.symm⟩

lemma pickFoldQ_char {α : Type} (sc : α → ℚ) (l : List α) :
    pickFoldQ sc l =
      (if 0 < maxScoreQ sc l then
        l.find? (fun it => decide (sc it = maxScoreQ sc l))
      else none, maxScoreQ sc l) := by
  induction l using List.reverseRecOn with
  | nil => simp [pickFoldQ, maxScoreQ]
  | append_singleton l x ih =>
    have hstep : pickFoldQ sc (l ++ [x]) =
        (if sc x > (pickFoldQ sc l).2 then (some x, sc x) else pickFoldQ sc l) := by
      unfold pickFoldQ
      rw [List.foldl_append]
      rfl
    rw [hstep, ih, maxScoreQ_append]
    by_cases hgt : sc x > maxScoreQ sc l
    · rw [if_pos (by simpa using hgt)]
      have hx0 : (0 : ℚ) < sc x := lt_of_le_of_lt (maxScoreQ_nonneg sc l) hgt
      have hmax : max (maxScoreQ sc l) (sc x) = sc x := max_eq_right (le_of_lt hgt)
      rw [hmax, if_pos hx0]
      have hnone : l.find? (fun it => decide (sc it = sc x)) = none := by
        rw [List.find?_eq_none]
        intro it hit
        simp only [decide_eq_true_eq]
        intro hc
        have := mem_maxScoreQ sc l it hit
        rw [hc] at this
        exact absurd hgt (not_lt.mpr this)
      rw [List.find?_append, hnone, Option.none_or]
      simp
    · rw [if_neg (by simpa using hgt)]
      have hmax : max (maxScoreQ sc l) (sc x) = maxScoreQ sc l :=
        max_eq_left (not_lt.mp hgt)
      rw [hmax]
      by_cases h0 : 0 < maxScoreQ sc l
      · rw [if_pos h0, if_pos h0]
        obtain ⟨it, hmem, hit⟩ := maxScoreQ_attained sc l h0
        have hsome : (l.find? (fun it => decide (sc it = maxScoreQ sc l))).isSome :=
          List.find?_isSome.mpr ⟨it, hmem, by simpa using hit⟩
        rw [List.find?_append]
        cases hfind : l.find? (fun it => decide (sc it = maxScoreQ sc l)) with
        | none => rw [hfind] at hsome; exact absurd hsome (by simp)
        | some b => simp
      · rw [if_neg h0, if_neg h0]

lemma specSelect_eq_pick {α : Type} (sc : α → ℚ) (l : List α) (t : ℚ) (ht : 0 < t) :
    specSelect sc l t = (if (pickFoldQ sc l).2 ≥ t then pickFoldQ sc l else (none, 0)) := by
  rw [pickFoldQ_char]
  unfold specSelect
  have hm : l.foldl (fun acc it => max acc (sc it)) 0 = maxScoreQ sc l := rfl
  rw [hm]
  dsimp only
  by_cases hMt : maxScoreQ sc l ≥ t
  · rw [if_pos hMt, if_pos hMt]
    have h0 : 0 < maxScoreQ sc l := lt_of_lt_of_le ht hMt
    rw [if_pos h0]
    obtain ⟨it, hmem, hit⟩ := maxScoreQ_attained sc l h0
    have hsome : (l.find? (fun it => decide (sc it = maxScoreQ sc l))).isSome :=
      List.find?_isSome.mpr ⟨it, hmem, by simpa using hit⟩
    cases hfind : l.find? (fun it => decide (sc it = maxScoreQ sc l)) with
    | none => rw [hfind] at hsome; exact absurd hsome (by simp)
    | some b => rfl
  · rw [if_neg hMt, if_neg hMt]

/-- **C8 (amended).** `find_best_match` scores each candidate by:
(1) if the normalized query is a substring of the normalized name,
0.9 plus a length-ratio bonus; else (2) if any query word overlaps a
candidate-name word — where a query word and a candidate word overlap
when **either is a substring of the other** — the score is
(overlapping query words / query-word count)·0.6 + sequence-similarity·0.4;
else (3) the pure sequence-similarity ratio; and it returns the single
highest-scoring candidate (first in item order among ties) with its
score exactly when that score reaches the (positive) threshold,
otherwise no-match.  The name hypothesis excludes the empty-normalized
candidate name on which the Python code would divide by zero. -/
theorem find_best_match_amended {α : Type} (q : Str) (items : List α) (f : α → Str)
    (t : ℚ) (ht : 0 < t)
    (hn : ∀ it ∈ items, normalizeText (f it) ≠ []) :
    findBestMatch q items f t =
      specSelect (fun it => amendScore (normalizeText q) (normalizeText (f it))) items t := by
  have hcode : findBestMatch q items f t =
      (if (pickFoldQ (fun it => amendScore (normalizeText q) (normalizeText (f it))) items).2 ≥ t
       then pickFoldQ (fun it => amendScore (normalizeText q) (normalizeText (f it))) items
       else (none, 0)) := by
    unfold findBestMatch pickFoldQ
    dsimp only
    have hfun : (fun (acc : Option α × ℚ) it =>
        if itemScore (normalizeText q) (normalizeText (f it)) > acc.2 then
          (some it, itemScore (normalizeText q) (normalizeText (f it)))
        else acc) =
        (fun (acc : Option α × ℚ) it =>
          if amendScore (normalizeText q) (normalizeText (f it)) > acc.2 then
            (some it, amendScore (normalizeText q) (normalizeText (f it)))
          else acc) := by
      funext acc it
      rw [itemScore_eq_amend]
    rw [hfun]
  rw [hcode, specSelect_eq_pick _ _ _ ht]

theorem find_best_match_amended_witness :
    findBestMatch "такси москва".toList ["Такси Москва Центр".toList] id ((2 : ℚ)/5) =
      specSelect (fun it => amendScore (normalizeText "такси москва".toList)
        (normalizeText it)) ["Такси Москва Центр".toList] ((2 : ℚ)/5) :=
  find_best_match_amended "такси москва".toList ["Такси Москва Центр".toList] id
    ((2 : ℚ)/5) (by norm_num) (by decide)

/-- **C8 (counterexample).** For query "abc" and single candidate "ab"
with threshold 0.4: the code counts the overlap pair ("abc","ab")
because the candidate word "ab" is a substring of the query word "abc",
giving score (1/1)·0.6 + 0.8·0.4 = 23/25; under the claim's literal
count — query words appearing as a substring of some candidate word —
the count is 0, the token-overlap branch does not apply, and the score
is the pure sequence-similarity 4/5.  The returned pairs differ. -/
theorem find_best_match_counterexample :
    findBestMatch "abc".toList ["ab".toList] id ((2 : ℚ)/5) ≠
      specSelect (fun it => claimScore (normalizeText "abc".toList) (normalizeText it))
        ["ab".toList] ((2 : ℚ)/5) := by
  have hn1 : normalizeText "abc".toList = "abc".toList := by decide
  have hn2 : normalizeText "ab".toList = "ab".toList := by decide
  have hr : seqRatio "abc".toList "ab".toList = 4/5 := by
    unfold seqRatio
    rw [show matchesTotal "abc".toList "ab".toList = 2 from by decide]
    norm_num
  have hc : containsSub "ab".toList "abc".toList = false := by decide
  have hsw1 : splitWs "abc".toList = ["abc".toList] := by decide
  have hsw2 : splitWs "ab".toList = ["ab".toList] := by decide
  have hfil : List.filter
      (fun w => ["ab".toList].any fun nw => containsSub nw w || containsSub w nw)
      ["abc".toList] = ["abc".toList] := by decide
  have hfil2 : List.filter (fun w => ["ab".toList].any fun nw => containsSub nw w)
      ["abc".toList] = [] := by decide
  have hsim : calculateSimilarity "abc".toList "ab".toList = 4/5 := by
    unfold calculateSimilarity
    rw [hn1, hn2, hr]
  have hscode : itemScore "abc".toList "ab".toList = 23/25 := by
    unfold itemScore
    rw [hc]
    dsimp only [Bool.false_eq_true, if_false]
    rw [hsw1, hsw2, hfil, hsim]
    norm_num
  have hsclaim : claimScore "abc".toList "ab".toList = 4/5 := by
    unfold claimScore
    rw [hc]
    dsimp only [Bool.false_eq_true, if_false]
    rw [hsw1, hsw2, hfil2, hsim]
    norm_num
  have hL : findBestMatch "abc".toList ["ab".toList] id ((2 : ℚ)/5) =
      (some "ab".toList, 23/25) := by
    unfold findBestMatch
    dsimp only [List.foldl_cons, List.foldl_nil, id_eq]
    rw [hn1, hn2, hscode]
    norm_num
  have hR : specSelect (fun it => claimScore (normalizeText "abc".toList) (normalizeText it))
      ["ab".toList] ((2 : ℚ)/5) = (some "ab".toList, 4/5) := by
    unfold specSelect
    dsimp only [List.foldl_cons, List.foldl_nil]
    rw [hn1, hn2, hsclaim]
    rw [show max (0 : ℚ) (4/5) = 4/5 from max_eq_right (by norm_num)]
    rw [if_pos (by norm_num : (4 : ℚ)/5 ≥ 2/5)]
    have hfind : List.find? (fun it => decide (claimScore "abc".toList
        (normalizeText it) = 4/5)) ["ab".toList] = some "ab".toList := by
      rw [List.find?_cons_of_pos]
      rw [hn2, hsclaim]
      simp
    rw [hfind]
  rw [hL, hR]
  intro h
  rw [Prod.ext_iff] at h
  exact absurd h.2 (by norm_num)
